import Mathlib

/-!
# Verification of the asmbo adaptive surrogate-model optimisation loop

Shallow embedding of the round-controller scripts (`scripts/main.py`,
`scripts/main_0p1.py`, `scripts/main_lh2.py`, `scripts/main_ss.py`) and of the
optimiser adapter (`asmbo/optimiser.py`).  Python dictionaries are modelled as
insertion-ordered association lists, Python numbers as rationals, and Python
exceptions as an explicit error type threaded through `Except`.
-/

set_option autoImplicit false

namespace Asmbo

/-- A Python value as it occurs in the training dictionaries: a number
(Python float, modelled as a rational) or a list of values. -/
inductive PyVal where
  | num : ℚ → PyVal
  | list : List PyVal → PyVal

/-- A Python exception relevant to the scripts: `KeyError` (failed dictionary
lookup, carrying the key) or `TypeError` (unsupported `+` operands). -/
inductive PyErr where
  | keyError : String → PyErr
  | typeError : PyErr
  deriving DecidableEq

/-- A Python dict, modelled as an insertion-ordered association list. -/
abbrev PyDict := List (String × PyVal)

/-- Dictionary lookup `d[k]`, returning the value of the first matching key. -/
def dictGet (d : PyDict) (k : String) : Option PyVal :=
  match d with
  | [] => none
  | (k', v) :: rest => if k' = k then some v else dictGet rest k

/-- Python `k in d.keys()`. -/
def dictHasKey (d : PyDict) (k : String) : Bool :=
  (dictGet d k).isSome

/-- Dictionary assignment `d[k] = v`: overwrite in place if the key is
present, otherwise append the new entry (Python insertion order). -/
def dictSet (d : PyDict) (k : String) (v : PyVal) : PyDict :=
  match d with
  | [] => [(k, v)]
  | (k', v') :: rest => if k' = k then (k', v) :: rest else (k', v') :: dictSet rest k v

/-- Python `+` on the values stored in the training dictionaries: numeric
addition on numbers, concatenation on lists, `TypeError` otherwise. -/
def pyAdd : PyVal → PyVal → Except PyErr PyVal
  | PyVal.num a, PyVal.num b => Except.ok (PyVal.num (a + b))
  | PyVal.list a, PyVal.list b => Except.ok (PyVal.list (a ++ b))
  | _, _ => Except.error PyErr.typeError

/-- `True` exactly on list values; used to express well-typedness of a
training corpus. -/
def isListVal : PyVal → Bool
  | PyVal.list _ => true
  | _ => false

/-- Boolean predicate over an optional value. -/
def optAll (p : PyVal → Bool) : Option PyVal → Bool
  | none => true
  | some v => p v

/-- `NUM_STRAINS` from the scripts: the fixed number of strain samples each
simulation is resampled to. -/
def NUM_STRAINS : Nat := 32

/-- `NUM_ITERATIONS` from the scripts: the campaign's round budget. -/
def NUM_ITERATIONS : Nat := 100

/-- `PARAM_NAMES` from `scripts/main_ss.py`. -/
def PARAM_NAMES : List String := ["cp_tau_s", "cp_b", "cp_tau_0", "cp_n"]

/-- `PARAM_NAMES` from `scripts/main_0p1.py` (also `scripts/main.py`). -/
def PARAM_NAMES_0P1 : List String := ["cp_lh_0", "cp_lh_1", "cp_tau_0", "cp_n", "cp_gamma_0"]

/-- One iteration of the fusion loop body of `update_train_dict`
(`scripts/main_ss.py` lines 151-159, inlined verbatim in
`scripts/main_lh2.py` lines 113-121): skip keys absent from `sim_dict`,
broadcast scalar parameters `NUM_STRAINS` times, concatenate response
sequences.  An error raised in an earlier iteration aborts the loop. -/
def fuseStep (pn : List String) (ns : Nat) (sim : PyDict)
    (acc : Except PyErr PyDict) (kv : String × PyVal) : Except PyErr PyDict :=
  match acc with
  | Except.error e => Except.error e
  | Except.ok c =>
    match dictGet sim kv.1 with
    | none => Except.ok c
    | some s =>
      if kv.1 ∈ pn then
        (pyAdd kv.2 (PyVal.list (List.replicate ns s))).map (dictSet c kv.1)
      else
        (pyAdd kv.2 s).map (dictSet c kv.1)

/-- `update_train_dict` from `scripts/main_ss.py` (lines 141-159): build a
fresh `combined_dict` by iterating over the current training dictionary's
entries, with the global `PARAM_NAMES`/`NUM_STRAINS` passed explicitly. -/
def update_train_dict (pn : List String) (ns : Nat) (train sim : PyDict) :
    Except PyErr PyDict :=
  train.foldl (fuseStep pn ns sim) (Except.ok [])

/-- One iteration of the fusion loop body of `scripts/main_0p1.py`
(lines 96-102): identical to `fuseStep` except that there is no membership
guard, so a base key absent from `sim_dict` raises `KeyError`. -/
def fuseStep0p1 (pn : List String) (ns : Nat) (sim : PyDict)
    (acc : Except PyErr PyDict) (kv : String × PyVal) : Except PyErr PyDict :=
  match acc with
  | Except.error e => Except.error e
  | Except.ok c =>
    match dictGet sim kv.1 with
    | none => Except.error (PyErr.keyError kv.1)
    | some s =>
      if kv.1 ∈ pn then
        (pyAdd kv.2 (PyVal.list (List.replicate ns s))).map (dictSet c kv.1)
      else
        (pyAdd kv.2 s).map (dictSet c kv.1)

/-- The inline fusion loop of `scripts/main_0p1.py` `main` (lines 96-102). -/
def combine_dict_0p1 (pn : List String) (ns : Nat) (train sim : PyDict) :
    Except PyErr PyDict :=
  train.foldl (fuseStep0p1 pn ns sim) (Except.ok [])

/-- The first-round initialisation of the training dictionary in
`scripts/main_ss.py` `main` (lines 83-89): adopt the processed record's
schema, broadcasting parameter scalars `NUM_STRAINS` times. -/
def init_train_dict (pn : List String) (ns : Nat) (sim : PyDict) : PyDict :=
  sim.map (fun kv => if kv.1 ∈ pn then (kv.1, PyVal.list (List.replicate ns kv.2)) else kv)

/-- Well-typedness of a fusion call: every base value is a list, and for
every base key outside the parameter names, the value found in the new
record (if any) is also a list.  This is the typing discipline the scripts
maintain for their training dictionaries. -/
def wfFuse (pn : List String) (new train : PyDict) : Bool :=
  train.all (fun kv =>
    isListVal kv.2 &&
      (decide (kv.1 ∈ pn) || optAll isListVal (dictGet new kv.1)))

/-! ## Heap-level model of the fusion step

Python dictionaries are heap objects reached through names.  To state that
fusion does not mutate its inputs we model the relevant heap explicitly: a
list of dictionaries indexed by address.  `fuseInPlace` executes the fusion
loop of `update_train_dict` against this heap: it allocates a fresh object
for `combined_dict` and performs every `combined_dict[key] = ...` assignment
as a write to that object's address. -/

/-- One loop iteration of the fusion loop acting on the heap: read the
`combined_dict` object at address `ca`, compute the entry exactly as
`fuseStep` does, and write the updated object back to `ca`. -/
def fipBody (pn : List String) (ns : Nat) (sim : PyDict) (ca : Nat)
    (hh : List PyDict) (kv : String × PyVal) : Except PyErr (List PyDict) :=
  let c := hh.getD ca []
  match dictGet sim kv.1 with
  | none => Except.ok hh
  | some s =>
    if kv.1 ∈ pn then
      (pyAdd kv.2 (PyVal.list (List.replicate ns s))).map
        (fun v => hh.set ca (dictSet c kv.1 v))
    else
      (pyAdd kv.2 s).map (fun v => hh.set ca (dictSet c kv.1 v))

/-- The fusion loop of `update_train_dict` run against an explicit heap.
`ta`/`sa` are the addresses of `train_dict` and `sim_dict`; a fresh object
`combined_dict = {}` is allocated at the end of the heap and the loop writes
only to it.  Returns the final heap and the address of the result. -/
def fuseInPlace (pn : List String) (ns : Nat) (h : List PyDict) (ta sa : Nat) :
    Except PyErr (List PyDict × Nat) :=
  let train := h.getD ta []
  let sim := h.getD sa []
  (List.foldlM (fipBody pn ns sim h.length) (h ++ [[]]) train).map
    (fun hh => (hh, h.length))

/-! ## Convergence assessor and round-controller steps -/

/-- A best-parameters record as read by `read_params`: an ordered mapping
from parameter name to numeric value. -/
abbrev ParamVec := List (String × ℚ)

/-- Left fold selecting the element with the strictly smallest measure,
keeping the earlier element on ties. -/
def argMinBy {α : Type} (f : α → ℚ) (x : α) (xs : List α) : α :=
  xs.foldl (fun b p => if f p < f b then p else b) x

/-- Modelled from the spec: `asmbo.assessor.assess` is imported by every
script but its source is not under `src/`.  Per §4.4 it evaluates the
surrogate at each historical best parameter vector against the experimental
reference under the optimiser's discrepancy metric (abstracted here as
`err`) and returns the single best-performing historical vector. -/
def assess (err : ParamVec → ℚ) (history : List ParamVec) : Option ParamVec :=
  match history with
  | [] => none
  | p :: ps => some (argMinBy err p ps)

/-- The assessment step of the round controller (`scripts/main_lh2.py`
lines 83-86, identically `scripts/main_ss.py` lines 108-111): a cold start
(`None`) when `params_dict_list` is empty, otherwise `assess` on it. -/
def assessStep (err : ParamVec → ℚ) (history : List ParamVec) : Option ParamVec :=
  if history = [] then none else assess err history

/-- The campaign loop of `scripts/main.py` `main` (line 45):
`for i in range(NUM_ITERATIONS)` with no `break`, applying the body to the
carried state.  Alongside the final state it returns the list of round
indices that were executed. -/
def runCampaign {σ : Type} (round : Nat → σ → σ) (s : σ) : σ × List Nat :=
  (List.range NUM_ITERATIONS).foldl (fun st i => (round i st.1, st.2 ++ [i])) (s, [])

/-! ## Parameter optimiser (`asmbo/optimiser.py`) -/

/-- One `itf.bind_param(name, lower, upper)` declaration. -/
structure ParamBound where
  name : String
  lower : ℚ
  upper : ℚ

/-- The parameter schema bound in `asmbo/optimiser.py` lines 44-48. -/
def bind_params : List ParamBound :=
  [⟨"lh_0", 0, 400⟩, ⟨"lh_1", 0, 400⟩, ⟨"tau_0", 0, 200⟩,
   ⟨"n", 1, 16⟩, ⟨"gamma_0", 0, 1 / 10000⟩]

/-- Clamp a raw gene into the unit interval. -/
def clamp01 (u : ℚ) : ℚ := max 0 (min 1 u)

/-- Map a unit-interval gene affinely into a parameter's `[lower, upper]`
range. -/
def scaleParam (b : ParamBound) (u : ℚ) : ℚ :=
  b.lower + clamp01 u * (b.upper - b.lower)

/-- Decode a genome into a parameter vector over the bound schema. -/
def decode (schema : List ParamBound) (g : List ℚ) : List ℚ :=
  List.zipWith scaleParam schema g

/-- Initial population: `popN` genomes of `dim` genes drawn from the
external random stream. -/
def initPop (dim popN : Nat) (stream : Nat → ℚ) : List (List ℚ) :=
  (List.range popN).map fun i => (List.range dim).map fun j => stream (i * dim + j)

/-- Mutate a genome by perturbing each gene with the next stream values. -/
def mutateG (dim : Nat) (stream : Nat → ℚ) (base : Nat) (g : List ℚ) : List ℚ :=
  List.zipWith (fun u j => u + stream (base + j)) g (List.range dim)

/-- One generation: produce an offspring per individual and keep whichever
of parent and offspring scores better under the fitness. -/
def nextGen (fitness : List ℚ → ℚ) (schema : List ParamBound) (dim popN : Nat)
    (stream : Nat → ℚ) (gen : Nat) (pop : List (List ℚ)) : List (List ℚ) :=
  List.zipWith
    (fun g i =>
      let o := mutateG dim stream ((gen + 1) * popN * dim + i * dim) g
      if fitness (decode schema o) ≤ fitness (decode schema g) then o else g)
    pop (List.range popN)

/-- Modelled from the spec: the MOGA engine behind
`opt_all.interface.Interface.optimise` is an external collaborator whose
source is not under `src/`.  Per §4.5 it is a population-based stochastic
search over the bound parameter space, driven here by an abstract random
stream, terminating after the fixed generation count and never leaving the
declared bounds.  Genomes live in unit-code space and are decoded through
the schema. -/
def moga (fitness : List ℚ → ℚ) (schema : List ParamBound)
    (numGens popN offN : Nat) (crossRate mutRate : ℚ) (stream : Nat → ℚ) :
    List (List ℚ) :=
  let dim := schema.length
  (List.range numGens).foldl
    (fun pop gen => nextGen fitness schema dim popN stream gen pop)
    (initPop dim popN stream)

/-- `optimise` from `asmbo/optimiser.py`: bind the schema of lines 44-48 and
run `itf.optimise("moga", num_gens=2, population=100, offspring=100,
crossover=0.8, mutation=0.01)` (line 108), returning the best candidate of
the final population (the head of the ranked candidate list).  The
multi-term error aggregate built from `itf.add_error` is opaque and passed
as `fitness`. -/
def optimise (fitness : List ℚ → ℚ) (stream : Nat → ℚ) : Option (List ℚ) :=
  match (moga fitness bind_params 2 100 100 (8 / 10) (1 / 100) stream).map
      (decode bind_params) with
  | [] => none
  | c :: cs => some (argMinBy fitness c cs)

/-! ## Per-round storage paths

`scripts/main_lh2.py` line 58 defines
`get_prefix = lambda: f"{RESULTS_PATH}/" + time.strftime("%y%m%d%H%M%S", ...)`
and lines 77/90/96 build the stage directories as
`f"{get_prefix()}_i{i+1}_surrogate" / "_optimise" / "_simulate"`.  Strings
are modelled as character lists; the decimal rendering of the round number
mirrors Python's `str`. -/

/-- The decimal digit character for a digit value below ten. -/
def digitChar (d : Nat) : Char :=
  if d = 0 then '0' else if d = 1 then '1' else if d = 2 then '2'
  else if d = 3 then '3' else if d = 4 then '4' else if d = 5 then '5'
  else if d = 6 then '6' else if d = 7 then '7' else if d = 8 then '8'
  else '9'

/-- Is this character a decimal digit? -/
def isDig (c : Char) : Bool :=
  48 ≤ c.toNat && c.toNat ≤ 57

/-- Little-endian decimal digits of `n`, with structural fuel. -/
def toDigitsRev (fuel n : Nat) : List Nat :=
  match fuel with
  | 0 => []
  | fuel + 1 => if n < 10 then [n] else n % 10 :: toDigitsRev fuel (n / 10)

/-- Value of a little-endian digit list. -/
def valRev (l : List Nat) : Nat :=
  l.foldr (fun d acc => acc * 10 + d) 0

/-- The decimal rendering of a natural number, as Python's `str` produces
inside the f-strings. -/
def decRepr (n : Nat) : List Char :=
  ((toDigitsRev (n + 1) n).map digitChar).reverse

/-- A stage directory name: timestamped prefix, `_i`, the 1-based round
number, `_`, and the stage tag. -/
def stagePath (ts : List Char) (r : Nat) (tag : List Char) : List Char :=
  ts ++ '_' :: 'i' :: (decRepr (r + 1) ++ '_' :: tag)

/-- The three stage tags of the round loop in `scripts/main_lh2.py`. -/
def STAGE_TAGS : List (List Char) :=
  ["surrogate".data, "optimise".data, "simulate".data]

/-! ## Basic dictionary lemmas -/

theorem isListVal_iff (v : PyVal) : isListVal v = true ↔ ∃ l, v = PyVal.list l := by
  cases v <;> simp [isListVal]

theorem dictGet_cons (k' : String) (v : PyVal) (rest : PyDict) (k : String) :
    dictGet ((k', v) :: rest) k = if k' = k then some v else dictGet rest k := rfl

theorem dictSet_of_get_none {d : PyDict} {k : String} (v : PyVal)
    (h : dictGet d k = none) : dictSet d k v = d ++ [(k, v)] := by
  induction d with
  | nil => rfl
  | cons kv rest ih =>
    obtain ⟨k', v'⟩ := kv
    rw [dictGet_cons] at h
    by_cases hk : k' = k
    · simp [hk] at h
    · rw [if_neg hk] at h
      simp [dictSet, hk, ih h]

theorem dictGet_append_of_none {a : PyDict} {k : String} (b : PyDict)
    (ha : dictGet a k = none) : dictGet (a ++ b) k = dictGet b k := by
  induction a with
  | nil => rfl
  | cons kv rest ih =>
    obtain ⟨k', v'⟩ := kv
    rw [dictGet_cons] at ha
    by_cases hk : k' = k
    · simp [hk] at ha
    · rw [if_neg hk] at ha
      rw [List.cons_append, dictGet_cons, if_neg hk]
      exact ih ha

/-! ## Characterisation of the fusion loop of `update_train_dict` -/

theorem fuse_go (pn : List String) (ns : Nat) (new : PyDict) :
    ∀ train : PyDict, wfFuse pn new train = true → (train.map Prod.fst).Nodup →
    ∃ d : PyDict,
      (∀ acc : PyDict, (∀ kv ∈ train, dictGet acc kv.1 = none) →
        List.foldl (fuseStep pn ns new) (Except.ok acc) train = Except.ok (acc ++ d)) ∧
      d.map Prod.fst = (train.map Prod.fst).filter (fun k => dictHasKey new k) ∧
      (∀ k bl s, k ∈ pn → dictGet train k = some (PyVal.list bl) →
        dictGet new k = some s →
        dictGet d k = some (PyVal.list (bl ++ List.replicate ns s))) ∧
      (∀ k bl sl, k ∉ pn → dictGet train k = some (PyVal.list bl) →
        dictGet new k = some (PyVal.list sl) →
        dictGet d k = some (PyVal.list (bl ++ sl))) := by
  intro train
  induction train with
  | nil =>
    intro _ _
    refine ⟨[], fun acc _ => by simp, by simp, ?_, ?_⟩
    · intro k bl s _ h _; simp [dictGet] at h
    · intro k bl sl _ h _; simp [dictGet] at h
  | cons kv rest ih =>
    obtain ⟨k, v⟩ := kv
    intro hwf hnd
    simp only [wfFuse, List.all_cons, Bool.and_eq_true, Bool.or_eq_true,
      decide_eq_true_iff] at hwf
    obtain ⟨⟨hvl, hnewty⟩, hrest⟩ := hwf
    have hrestwf : wfFuse pn new rest = true := hrest
    simp only [List.map_cons, List.nodup_cons] at hnd
    obtain ⟨hknotin, hndr⟩ := hnd
    obtain ⟨l, rfl⟩ := (isListVal_iff v).mp hvl
    obtain ⟨d, hfold, hkeys, hpar, hresp⟩ := ih hrestwf hndr
    cases hnew : dictGet new k with
    | none =>
      refine ⟨d, ?_, ?_, ?_, ?_⟩
      · intro acc hfresh
        have hstep : fuseStep pn ns new (Except.ok acc) (k, PyVal.list l) =
            Except.ok acc := by
          simp [fuseStep, hnew]
        rw [List.foldl_cons, hstep]
        exact hfold acc (fun kv hkv => hfresh kv (List.mem_cons_of_mem _ hkv))
      · simp [hkeys, List.filter_cons, dictHasKey, hnew]
      · intro k' bl s hpn hgt hgn
        rw [dictGet_cons] at hgt
        by_cases hkk : k = k'
        · subst hkk
          rw [hnew] at hgn
          exact absurd hgn (by simp)
        · rw [if_neg hkk] at hgt
          exact hpar k' bl s hpn hgt hgn
      · intro k' bl sl hpn hgt hgn
        rw [dictGet_cons] at hgt
        by_cases hkk : k = k'
        · subst hkk
          rw [hnew] at hgn
          exact absurd hgn (by simp)
        · rw [if_neg hkk] at hgt
          exact hresp k' bl sl hpn hgt hgn
    | some s =>
      have hfreshd : ∀ (acc : PyDict) (val : PyVal),
          (∀ kv ∈ (k, PyVal.list l) :: rest, dictGet acc kv.1 = none) →
          (∀ kv ∈ rest, dictGet (acc ++ [(k, val)]) kv.1 = none) := by
        intro acc val hfresh kv hkv
        have hk : k ≠ kv.1 := by
          intro h
          exact hknotin (h ▸ List.mem_map_of_mem Prod.fst hkv)
        rw [dictGet_append_of_none _ (hfresh kv (List.mem_cons_of_mem _ hkv))]
        simp [dictGet, hk]
      by_cases hpn : k ∈ pn
      · -- parameter field: broadcast the scalar `NUM_STRAINS` times
        refine ⟨(k, PyVal.list (l ++ List.replicate ns s)) :: d, ?_, ?_, ?_, ?_⟩
        · intro acc hfresh
          have hstep : fuseStep pn ns new (Except.ok acc) (k, PyVal.list l) =
              Except.ok (acc ++ [(k, PyVal.list (l ++ List.replicate ns s))]) := by
            simp [fuseStep, hnew, hpn, pyAdd, Except.map]
            exact dictSet_of_get_none _ (hfresh _ (List.mem_cons_self _ _))
          rw [List.foldl_cons, hstep,
            hfold _ (hfreshd acc _ hfresh), List.append_assoc]
          rfl
        · simp [hkeys, List.filter_cons, dictHasKey, hnew]
        · intro k' bl s' hpn' hgt hgn
          rw [dictGet_cons] at hgt
          rw [dictGet_cons]
          by_cases hkk : k = k'
          · subst hkk
            rw [if_pos rfl] at hgt ⊢
            rw [hnew] at hgn
            rw [Option.some_inj] at hgt hgn
            injection hgt with h1
            subst h1
            subst hgn
            rfl
          · rw [if_neg hkk] at hgt ⊢
            exact hpar k' bl s' hpn' hgt hgn
        · intro k' bl sl hpn' hgt hgn
          rw [dictGet_cons] at hgt
          rw [dictGet_cons]
          by_cases hkk : k = k'
          · exact absurd (hkk ▸ hpn) hpn'
          · rw [if_neg hkk] at hgt ⊢
            exact hresp k' bl sl hpn' hgt hgn
      · -- response field: concatenate the sample sequences
        have hsl : ∃ sl, s = PyVal.list sl := by
          rcases hnewty with h | h
          · exact absurd h hpn
          · rw [hnew] at h
            exact (isListVal_iff s).mp h
        obtain ⟨sl, rfl⟩ := hsl
        refine ⟨(k, PyVal.list (l ++ sl)) :: d, ?_, ?_, ?_, ?_⟩
        · intro acc hfresh
          have hstep : fuseStep pn ns new (Except.ok acc) (k, PyVal.list l) =
              Except.ok (acc ++ [(k, PyVal.list (l ++ sl))]) := by
            simp [fuseStep, hnew, hpn, pyAdd, Except.map]
            exact dictSet_of_get_none _ (hfresh _ (List.mem_cons_self _ _))
          rw [List.foldl_cons, hstep,
            hfold _ (hfreshd acc _ hfresh), List.append_assoc]
          rfl
        · simp [hkeys, List.filter_cons, dictHasKey, hnew]
        · intro k' bl s' hpn' hgt hgn
          rw [dictGet_cons] at hgt
          rw [dictGet_cons]
          by_cases hkk : k = k'
          · exact absurd (hkk ▸ hpn') hpn
          · rw [if_neg hkk] at hgt ⊢
            exact hpar k' bl s' hpn' hgt hgn
        · intro k' bl sl' hpn' hgt hgn
          rw [dictGet_cons] at hgt
          rw [dictGet_cons]
          by_cases hkk : k = k'
          · subst hkk
            rw [if_pos rfl] at hgt ⊢
            rw [hnew] at hgn
            rw [Option.some_inj] at hgt hgn
            injection hgt with h1
            subst h1
            injection hgn with h2
            subst h2
            rfl
          · rw [if_neg hkk] at hgt ⊢
            exact hresp k' bl sl' hpn' hgt hgn

theorem dictGet_some_mem {d : PyDict} {k : String} {v : PyVal}
    (h : dictGet d k = some v) : (k, v) ∈ d := by
  induction d with
  | nil => simp [dictGet] at h
  | cons kv rest ih =>
    obtain ⟨k', v'⟩ := kv
    rw [dictGet_cons] at h
    by_cases hk : k' = k
    · subst hk
      rw [if_pos rfl, Option.some_inj] at h
      subst h
      exact List.mem_cons_self _ _
    · rw [if_neg hk] at h
      exact List.mem_cons_of_mem _ (ih h)

theorem wfFuse_resp_list {pn : List String} {new train : PyDict} {k : String}
    {bl : List PyVal} {s : PyVal} (hwf : wfFuse pn new train = true)
    (hkp : k ∉ pn) (hg : dictGet train k = some (PyVal.list bl))
    (hn : dictGet new k = some s) : ∃ sl, s = PyVal.list sl := by
  have hmem := dictGet_some_mem hg
  simp only [wfFuse, List.all_eq_true, Bool.and_eq_true, Bool.or_eq_true,
    decide_eq_true_iff] at hwf
  rcases (hwf _ hmem).2 with h | h
  · exact absurd h hkp
  · rw [hn] at h
    exact (isListVal_iff s).mp h

theorem update_train_dict_eq_of_fuse_go {pn : List String} {ns : Nat}
    {train new d : PyDict}
    (hfold : ∀ acc : PyDict, (∀ kv ∈ train, dictGet acc kv.1 = none) →
      List.foldl (fuseStep pn ns new) (Except.ok acc) train = Except.ok (acc ++ d)) :
    update_train_dict pn ns train new = Except.ok d := by
  have := hfold [] (fun kv _ => rfl)
  simpa [update_train_dict] using this

/-! ## Claim C1: fusion and the corpus schema -/

/-- Claim C1, counterexample: fusion is not schema-preserving in the claimed
sense.  For the base corpus `{"average_stress": []}` and the new record `{}`,
`update_train_dict` returns the empty dictionary, so the base-only field
`average_stress` is dropped rather than kept, and the result's field set
differs from the base's. -/
theorem update_train_dict_schema_cex :
    update_train_dict PARAM_NAMES NUM_STRAINS
      [("average_stress", PyVal.list [])] [] = Except.ok [] ∧
    ([] : PyDict).map Prod.fst ≠
      ([("average_stress", PyVal.list [])] : PyDict).map Prod.fst :=
  ⟨rfl, by decide⟩

/-- Claim C1, amended: for every well-typed base corpus with distinct field
names and every new record, fusion succeeds and the result's field set is the
base's field set restricted to fields also present in the new record (in base
order) — fields present only in the base are dropped, as are fields present
only in the new record — and every surviving field's length is the base
length plus the new contribution (`ns` broadcast copies for parameter fields,
the new sequence's length for response fields). -/
theorem update_train_dict_schema (pn : List String) (ns : Nat)
    (train new : PyDict) (hwf : wfFuse pn new train = true)
    (hnd : (train.map Prod.fst).Nodup) :
    ∃ d : PyDict,
      update_train_dict pn ns train new = Except.ok d ∧
      d.map Prod.fst = (train.map Prod.fst).filter (fun k => dictHasKey new k) ∧
      (∀ k bl s, k ∈ pn → dictGet train k = some (PyVal.list bl) →
        dictGet new k = some s →
        ∃ rl, dictGet d k = some (PyVal.list rl) ∧ rl.length = bl.length + ns) ∧
      (∀ k bl sl, k ∉ pn → dictGet train k = some (PyVal.list bl) →
        dictGet new k = some (PyVal.list sl) →
        ∃ rl, dictGet d k = some (PyVal.list rl) ∧
          rl.length = bl.length + sl.length) := by
  obtain ⟨d, hfold, hkeys, hpar, hresp⟩ := fuse_go pn ns new train hwf hnd
  refine ⟨d, update_train_dict_eq_of_fuse_go hfold, hkeys, ?_, ?_⟩
  · intro k bl s hp hg hn
    exact ⟨bl ++ List.replicate ns s, hpar k bl s hp hg hn, by simp⟩
  · intro k bl sl hp hg hn
    exact ⟨bl ++ sl, hresp k bl sl hp hg hn, by simp⟩

/-- Claim C1, witness: the amended schema theorem applied to a concrete
two-field corpus and record. -/
theorem update_train_dict_schema_witness :
    ∃ d : PyDict,
      update_train_dict PARAM_NAMES NUM_STRAINS
        [("cp_tau_0", PyVal.list [PyVal.num 1]),
         ("average_stress", PyVal.list [PyVal.num 2])]
        [("cp_tau_0", PyVal.num 5),
         ("average_stress", PyVal.list [PyVal.num 3])] = Except.ok d ∧
      d.map Prod.fst =
        (([("cp_tau_0", PyVal.list [PyVal.num 1]),
           ("average_stress", PyVal.list [PyVal.num 2])] : PyDict).map
            Prod.fst).filter
          (fun k => dictHasKey
            [("cp_tau_0", PyVal.num 5),
             ("average_stress", PyVal.list [PyVal.num 3])] k) ∧
      (∀ k bl s, k ∈ PARAM_NAMES →
        dictGet [("cp_tau_0", PyVal.list [PyVal.num 1]),
          ("average_stress", PyVal.list [PyVal.num 2])] k =
            some (PyVal.list bl) →
        dictGet [("cp_tau_0", PyVal.num 5),
          ("average_stress", PyVal.list [PyVal.num 3])] k = some s →
        ∃ rl, dictGet d k = some (PyVal.list rl) ∧
          rl.length = bl.length + NUM_STRAINS) ∧
      (∀ k bl sl, k ∉ PARAM_NAMES →
        dictGet [("cp_tau_0", PyVal.list [PyVal.num 1]),
          ("average_stress", PyVal.list [PyVal.num 2])] k =
            some (PyVal.list bl) →
        dictGet [("cp_tau_0", PyVal.num 5),
          ("average_stress", PyVal.list [PyVal.num 3])] k =
            some (PyVal.list sl) →
        ∃ rl, dictGet d k = some (PyVal.list rl) ∧
          rl.length = bl.length + sl.length) :=
  update_train_dict_schema PARAM_NAMES NUM_STRAINS _ _ (by rfl) (by decide)

/-! ## Claim C2: fusing into an empty base corpus -/

/-- Claim C2, counterexample: `fuse({}, new)` is not `new`.  On the empty
base corpus the fusion loop iterates over no keys and returns the empty
dictionary, dropping the new record entirely. -/
theorem update_train_dict_empty_base_cex :
    update_train_dict PARAM_NAMES NUM_STRAINS []
      [("average_strain", PyVal.list [PyVal.num 1])] = Except.ok [] ∧
    ([] : PyDict).map Prod.fst ≠
      ([("average_strain", PyVal.list [PyVal.num 1])] : PyDict).map Prod.fst :=
  ⟨rfl, by decide⟩

/-- Claim C2, amended: fusing any new record into an empty base corpus
returns the empty corpus, not the new record.  The cold start is instead
handled by a separate initialisation path (`scripts/main_ss.py` lines 83-89)
which adopts the new record's field set verbatim, broadcasting parameter
scalars. -/
theorem update_train_dict_empty_base (pn : List String) (ns : Nat)
    (new : PyDict) :
    update_train_dict pn ns [] new = Except.ok [] ∧
    (init_train_dict pn ns new).map Prod.fst = new.map Prod.fst := by
  refine ⟨rfl, ?_⟩
  rw [init_train_dict, List.map_map]
  exact List.map_congr_left fun kv _ => by
    by_cases h : kv.1 ∈ pn <;> simp [h]

/-! ## Claim C3: fusion preserves the base prefix -/

/-- Claim C3 (confirmed): fusion is order-preserving.  For every well-typed
base corpus with distinct field names, whenever fusion succeeds, the fused
sequence of every field shared between base and new begins with the base
sequence: its first `len(base[field])` elements are exactly `base[field]`. -/
theorem update_train_dict_order (pn : List String) (ns : Nat)
    (train new d : PyDict) (k : String) (bl : List PyVal) (s : PyVal)
    (hwf : wfFuse pn new train = true) (hnd : (train.map Prod.fst).Nodup)
    (hok : update_train_dict pn ns train new = Except.ok d)
    (hg : dictGet train k = some (PyVal.list bl))
    (hn : dictGet new k = some s) :
    ∃ rl, dictGet d k = some (PyVal.list rl) ∧ rl.take bl.length = bl := by
  obtain ⟨d₀, hfold, hkeys, hpar, hresp⟩ := fuse_go pn ns new train hwf hnd
  rw [update_train_dict_eq_of_fuse_go hfold, Except.ok.injEq] at hok
  subst hok
  by_cases hp : k ∈ pn
  · exact ⟨bl ++ List.replicate ns s, hpar k bl s hp hg hn, List.take_left _ _⟩
  · obtain ⟨sl, rfl⟩ := wfFuse_resp_list hwf hp hg hn
    exact ⟨bl ++ sl, hresp k bl sl hp hg hn, List.take_left _ _⟩

/-- Claim C3, witness: order preservation on a concrete shared response
field. -/
theorem update_train_dict_order_witness :
    ∃ rl,
      dictGet [("average_stress", PyVal.list [PyVal.num 2, PyVal.num 4])] "average_stress" =
        some (PyVal.list rl) ∧
      rl.take ([PyVal.num 2] : List PyVal).length = [PyVal.num 2] :=
  update_train_dict_order PARAM_NAMES NUM_STRAINS
    [("average_stress", PyVal.list [PyVal.num 2])]
    [("average_stress", PyVal.list [PyVal.num 4])]
    [("average_stress", PyVal.list [PyVal.num 2, PyVal.num 4])]
    "average_stress" [PyVal.num 2] (PyVal.list [PyVal.num 4])
    (by rfl) (by decide) (by rfl) (by rfl) (by rfl)

/-! ## Claim C7: parameter broadcast -/

/-- Claim C7 (confirmed): in a successful fusion, every shared parameter
field receives exactly `NUM_STRAINS` (= 32) appended copies of the record's
scalar parameter value, and every shared non-parameter field receives the
record's sample sequence appended as-is. -/
theorem update_train_dict_broadcast (pn : List String) (train new d : PyDict)
    (hwf : wfFuse pn new train = true) (hnd : (train.map Prod.fst).Nodup)
    (hok : update_train_dict pn NUM_STRAINS train new = Except.ok d) :
    (∀ k bl s, k ∈ pn → dictGet train k = some (PyVal.list bl) →
      dictGet new k = some s →
      dictGet d k = some (PyVal.list (bl ++ List.replicate NUM_STRAINS s))) ∧
    (∀ k bl sl, k ∉ pn → dictGet train k = some (PyVal.list bl) →
      dictGet new k = some (PyVal.list sl) →
      dictGet d k = some (PyVal.list (bl ++ sl))) := by
  obtain ⟨d₀, hfold, hkeys, hpar, hresp⟩ :=
    fuse_go pn NUM_STRAINS new train hwf hnd
  rw [update_train_dict_eq_of_fuse_go hfold, Except.ok.injEq] at hok
  subst hok
  exact ⟨hpar, hresp⟩

/-- Claim C7, witness: broadcast behaviour on a concrete corpus with one
parameter field and one response field. -/
theorem update_train_dict_broadcast_witness :
    (∀ k bl s, k ∈ PARAM_NAMES →
      dictGet [("cp_n", PyVal.list [PyVal.num 7])] k = some (PyVal.list bl) →
      dictGet [("cp_n", PyVal.num 9)] k = some s →
      dictGet [("cp_n", PyVal.list (PyVal.num 7 :: List.replicate NUM_STRAINS (PyVal.num 9)))] k =
        some (PyVal.list (bl ++ List.replicate NUM_STRAINS s))) ∧
    (∀ k bl sl, k ∉ PARAM_NAMES →
      dictGet [("cp_n", PyVal.list [PyVal.num 7])] k = some (PyVal.list bl) →
      dictGet [("cp_n", PyVal.num 9)] k = some (PyVal.list sl) →
      dictGet [("cp_n", PyVal.list (PyVal.num 7 :: List.replicate NUM_STRAINS (PyVal.num 9)))] k =
        some (PyVal.list (bl ++ sl))) :=
  update_train_dict_broadcast PARAM_NAMES
    [("cp_n", PyVal.list [PyVal.num 7])] [("cp_n", PyVal.num 9)]
    [("cp_n", PyVal.list (PyVal.num 7 :: List.replicate NUM_STRAINS (PyVal.num 9)))]
    (by rfl) (by decide) (by rfl)

/-! ## Claim C9: the `main_0p1` fusion variant errors on missing fields -/

theorem fuseStep0p1_error_absorb (pn : List String) (ns : Nat) (sim : PyDict)
    (e : PyErr) (l : List (String × PyVal)) :
    List.foldl (fuseStep0p1 pn ns sim) (Except.error e) l = Except.error e := by
  induction l with
  | nil => rfl
  | cons kv rest ih => rw [List.foldl_cons]; exact ih

theorem fuse0p1_ok (pn : List String) (ns : Nat) (new : PyDict) :
    ∀ (train : PyDict) (c : PyDict), wfFuse pn new train = true →
    (∀ kv ∈ train, dictHasKey new kv.1 = true) →
    ∃ d, List.foldl (fuseStep0p1 pn ns new) (Except.ok c) train = Except.ok d := by
  intro train
  induction train with
  | nil => exact fun c _ _ => ⟨c, rfl⟩
  | cons kv rest ih =>
    obtain ⟨k, v⟩ := kv
    intro c hwf hall
    simp only [wfFuse, List.all_cons, Bool.and_eq_true, Bool.or_eq_true,
      decide_eq_true_iff] at hwf
    obtain ⟨⟨hvl, hnewty⟩, hrest⟩ := hwf
    obtain ⟨l, rfl⟩ := (isListVal_iff v).mp hvl
    have hk := hall _ (List.mem_cons_self _ _)
    rw [dictHasKey, Option.isSome_iff_exists] at hk
    obtain ⟨s, hs⟩ := hk
    have hallr := fun kv hkv => hall kv (List.mem_cons_of_mem _ hkv)
    by_cases hp : k ∈ pn
    · have hstep : fuseStep0p1 pn ns new (Except.ok c) (k, PyVal.list l) =
          Except.ok (dictSet c k (PyVal.list (l ++ List.replicate ns s))) := by
        simp [fuseStep0p1, hs, hp, pyAdd, Except.map]
      rw [List.foldl_cons, hstep]
      exact ih _ hrest hallr
    · have hsl : ∃ sl, s = PyVal.list sl := by
        rcases hnewty with h | h
        · exact absurd h hp
        · rw [hs] at h
          exact (isListVal_iff s).mp h
      obtain ⟨sl, rfl⟩ := hsl
      have hstep : fuseStep0p1 pn ns new (Except.ok c) (k, PyVal.list l) =
          Except.ok (dictSet c k (PyVal.list (l ++ sl))) := by
        simp [fuseStep0p1, hs, hp, pyAdd, Except.map]
      rw [List.foldl_cons, hstep]
      exact ih _ hrest hallr

theorem fuse0p1_err (pn : List String) (ns : Nat) (new : PyDict) :
    ∀ (train : PyDict) (c : PyDict), wfFuse pn new train = true →
    (∃ kv ∈ train, dictHasKey new kv.1 = false) →
    ∃ k, dictHasKey new k = false ∧
      List.foldl (fuseStep0p1 pn ns new) (Except.ok c) train =
        Except.error (PyErr.keyError k) := by
  intro train
  induction train with
  | nil => rintro c _ ⟨kv, hkv, _⟩; simp at hkv
  | cons kv rest ih =>
    obtain ⟨k, v⟩ := kv
    intro c hwf hmiss
    simp only [wfFuse, List.all_cons, Bool.and_eq_true, Bool.or_eq_true,
      decide_eq_true_iff] at hwf
    obtain ⟨⟨hvl, hnewty⟩, hrest⟩ := hwf
    obtain ⟨l, rfl⟩ := (isListVal_iff v).mp hvl
    cases hk : dictHasKey new k with
    | false =>
      have hnone : dictGet new k = none := by
        rw [dictHasKey] at hk
        exact Option.not_isSome_iff_eq_none.mp (by rw [hk]; simp)
      have hstep : fuseStep0p1 pn ns new (Except.ok c) (k, PyVal.list l) =
          Except.error (PyErr.keyError k) := by
        simp [fuseStep0p1, hnone]
      refine ⟨k, hk, ?_⟩
      rw [List.foldl_cons, hstep]
      exact fuseStep0p1_error_absorb pn ns new _ rest
    | true =>
      have hmissr : ∃ kv ∈ rest, dictHasKey new kv.1 = false := by
        rcases hmiss with ⟨kv', hkv', hmv⟩
        rcases List.mem_cons.mp hkv' with h | h
        · rw [h] at hmv
          rw [hmv] at hk
          exact absurd hk (by simp)
        · exact ⟨kv', h, hmv⟩
      rw [dictHasKey, Option.isSome_iff_exists] at hk
      obtain ⟨s, hs⟩ := hk
      by_cases hp : k ∈ pn
      · have hstep : fuseStep0p1 pn ns new (Except.ok c) (k, PyVal.list l) =
            Except.ok (dictSet c k (PyVal.list (l ++ List.replicate ns s))) := by
          simp [fuseStep0p1, hs, hp, pyAdd, Except.map]
        rw [List.foldl_cons, hstep]
        exact ih _ hrest hmissr
      · have hsl : ∃ sl, s = PyVal.list sl := by
          rcases hnewty with h | h
          · exact absurd h hp
          · rw [hs] at h
            exact (isListVal_iff s).mp h
        obtain ⟨sl, rfl⟩ := hsl
        have hstep : fuseStep0p1 pn ns new (Except.ok c) (k, PyVal.list l) =
            Except.ok (dictSet c k (PyVal.list (l ++ sl))) := by
          simp [fuseStep0p1, hs, hp, pyAdd, Except.map]
        rw [List.foldl_cons, hstep]
        exact ih _ hrest hmissr

/-- Claim C9 (confirmed): in the `main_0p1` script variant, fusion of a
well-typed corpus succeeds exactly when every base field is present in the
new record; when some base field is absent, fusion fails with a `KeyError`
naming a missing field instead of keeping or dropping that field. -/
theorem combine_dict_0p1_requires_all_fields (pn : List String) (ns : Nat)
    (train new : PyDict) (hwf : wfFuse pn new train = true) :
    ((∃ d, combine_dict_0p1 pn ns train new = Except.ok d) ↔
      ∀ k ∈ train.map Prod.fst, dictHasKey new k = true) ∧
    ((∃ k ∈ train.map Prod.fst, dictHasKey new k = false) →
      ∃ k, dictHasKey new k = false ∧
        combine_dict_0p1 pn ns train new = Except.error (PyErr.keyError k)) := by
  have herr : (∃ kv ∈ train, dictHasKey new kv.1 = false) →
      ∃ k, dictHasKey new k = false ∧
        combine_dict_0p1 pn ns train new = Except.error (PyErr.keyError k) :=
    fuse0p1_err pn ns new train [] hwf
  constructor
  · constructor
    · rintro ⟨d, hd⟩ k hk
      by_contra hfalse
      obtain ⟨v, hv⟩ := List.mem_map.mp hk
      obtain ⟨k', _, hk'⟩ := herr ⟨v, hv.1, by rw [hv.2]; simp [hfalse]⟩
      rw [hd] at hk'
      exact Except.noConfusion hk'
    · intro hall
      exact fuse0p1_ok pn ns new train [] hwf
        (fun kv hkv => hall kv.1 (List.mem_map_of_mem Prod.fst hkv))
  · rintro ⟨k, hk, hmv⟩
    obtain ⟨v, hv⟩ := List.mem_map.mp hk
    exact herr ⟨v, hv.1, by rw [hv.2]; exact hmv⟩

/-- Claim C9, witness: for a corpus with fields `cp_tau_0` and
`average_stress` and a new record containing only `cp_tau_0`, fusion in the
`main_0p1` variant cannot succeed and raises a `KeyError` on a missing
field. -/
theorem combine_dict_0p1_requires_all_fields_witness :
    ((∃ d, combine_dict_0p1 PARAM_NAMES_0P1 NUM_STRAINS
        [("cp_tau_0", PyVal.list []), ("average_stress", PyVal.list [])]
        [("cp_tau_0", PyVal.num 1)] = Except.ok d) ↔
      ∀ k ∈ ([("cp_tau_0", PyVal.list []), ("average_stress", PyVal.list [])] :
          PyDict).map Prod.fst,
        dictHasKey [("cp_tau_0", PyVal.num 1)] k = true) ∧
    ((∃ k ∈ ([("cp_tau_0", PyVal.list []), ("average_stress", PyVal.list [])] :
          PyDict).map Prod.fst,
        dictHasKey [("cp_tau_0", PyVal.num 1)] k = false) →
      ∃ k, dictHasKey [("cp_tau_0", PyVal.num 1)] k = false ∧
        combine_dict_0p1 PARAM_NAMES_0P1 NUM_STRAINS
          [("cp_tau_0", PyVal.list []), ("average_stress", PyVal.list [])]
          [("cp_tau_0", PyVal.num 1)] = Except.error (PyErr.keyError k)) :=
  combine_dict_0p1_requires_all_fields PARAM_NAMES_0P1 NUM_STRAINS
    [("cp_tau_0", PyVal.list []), ("average_stress", PyVal.list [])]
    [("cp_tau_0", PyVal.num 1)] (by rfl)

/-! ## Claim C10: fusion builds a fresh corpus without mutating its inputs -/

theorem list_set_of_getElem? {α : Type} (l : List α) (i : Nat) (a : α)
    (h : l[i]? = some a) : l.set i a = l := by
  induction l generalizing i with
  | nil => simp at h
  | cons x xs ih =>
    cases i with
    | zero =>
      simp only [List.getElem?_cons_zero, Option.some_inj] at h
      rw [h]
      rfl
    | succ n =>
      simp only [List.getElem?_cons_succ] at h
      rw [List.set_cons_succ, ih n h]

theorem fuseStep_error_absorb (pn : List String) (ns : Nat) (sim : PyDict)
    (e : PyErr) (l : List (String × PyVal)) :
    List.foldl (fuseStep pn ns sim) (Except.error e) l = Except.error e := by
  induction l with
  | nil => rfl
  | cons kv rest ih => rw [List.foldl_cons]; exact ih

theorem fip_go (pn : List String) (ns : Nat) (sim : PyDict) (ca : Nat) :
    ∀ (entries : List (String × PyVal)) (hh : List PyDict) (c : PyDict),
    hh[ca]? = some c →
    List.foldlM (fipBody pn ns sim ca) hh entries =
      (List.foldl (fuseStep pn ns sim) (Except.ok c) entries).map
        (fun d => hh.set ca d) := by
  intro entries
  induction entries with
  | nil =>
    intro hh c hc
    rw [List.foldlM_nil, List.foldl_nil, Except.map, list_set_of_getElem? hh ca c hc]
    rfl
  | cons kv rest ih =>
    intro hh c hc
    have hlt : ca < hh.length := (List.getElem?_eq_some.mp hc).1
    rw [List.foldlM_cons, List.foldl_cons]
    cases hget : dictGet sim kv.1 with
    | none =>
      have hbody : fipBody pn ns sim ca hh kv = Except.ok hh := by
        simp [fipBody, hget]
      have hstep : fuseStep pn ns sim (Except.ok c) kv = Except.ok c := by
        simp [fuseStep, hget]
      rw [hbody, hstep]
      exact ih hh c hc
    | some s =>
      have hmain : ∀ r : Except PyErr PyVal,
          (r.map (fun v => hh.set ca (dictSet c kv.1 v))).bind
              (fun h' => List.foldlM (fipBody pn ns sim ca) h' rest) =
          (List.foldl (fuseStep pn ns sim) (r.map (dictSet c kv.1)) rest).map
            (fun d => hh.set ca d) := by
        intro r
        cases r with
        | error e =>
          rw [show (Except.error e : Except PyErr PyVal).map
              (fun v => hh.set ca (dictSet c kv.1 v)) = Except.error e from rfl,
            show (Except.error e : Except PyErr PyVal).map (dictSet c kv.1) =
              Except.error e from rfl,
            fuseStep_error_absorb]
          rfl
        | ok v =>
          have hset : (hh.set ca (dictSet c kv.1 v))[ca]? = some (dictSet c kv.1 v) := by
            rw [List.getElem?_set_eq_of_lt _ hlt]
          have := ih (hh.set ca (dictSet c kv.1 v)) (dictSet c kv.1 v) hset
          rw [show (Except.ok v : Except PyErr PyVal).map
              (fun v => hh.set ca (dictSet c kv.1 v)) =
              Except.ok (hh.set ca (dictSet c kv.1 v)) from rfl,
            show (Except.ok v : Except PyErr PyVal).map (dictSet c kv.1) =
              Except.ok (dictSet c kv.1 v) from rfl]
          rw [show (Except.ok (hh.set ca (dictSet c kv.1 v)) :
              Except PyErr (List PyDict)).bind
              (fun h' => List.foldlM (fipBody pn ns sim ca) h' rest) =
              List.foldlM (fipBody pn ns sim ca) (hh.set ca (dictSet c kv.1 v)) rest
              from rfl]
          rw [this]
          have hfun : (fun d => (hh.set ca (dictSet c kv.1 v)).set ca d) =
              (fun d : PyDict => hh.set ca d) :=
            funext fun d => List.set_set _ _ hh ca
          rw [hfun]
      have hbody : fipBody pn ns sim ca hh kv =
          (if kv.1 ∈ pn then pyAdd kv.2 (PyVal.list (List.replicate ns s))
            else pyAdd kv.2 s).map (fun v => hh.set ca (dictSet c kv.1 v)) := by
        by_cases hp : kv.1 ∈ pn <;> simp [fipBody, hget, hp, hc]
      have hstep : fuseStep pn ns sim (Except.ok c) kv =
          (if kv.1 ∈ pn then pyAdd kv.2 (PyVal.list (List.replicate ns s))
            else pyAdd kv.2 s).map (dictSet c kv.1) := by
        by_cases hp : kv.1 ∈ pn <;> simp [fuseStep, hget, hp]
      rw [hbody, hstep]
      exact hmain _

/-- Claim C10 (confirmed): fusion does not mutate its inputs.  Running the
fusion loop against an explicit heap, with `train_dict` and `sim_dict` at
valid addresses, a successful run returns a freshly allocated address,
distinct from both input addresses; every previously allocated heap cell is
unchanged; and the fresh cell holds exactly the value of the pure
`update_train_dict`, which the controller then rebinds `train_dict` to. -/
theorem fuseInPlace_frame (pn : List String) (ns : Nat) (h : List PyDict)
    (ta sa : Nat) (hta : ta < h.length) (hsa : sa < h.length)
    (hh : List PyDict) (ca : Nat)
    (hok : fuseInPlace pn ns h ta sa = Except.ok (hh, ca)) :
    ca = h.length ∧ ca ≠ ta ∧ ca ≠ sa ∧
    (∀ a, a < h.length → hh[a]? = h[a]?) ∧
    ∃ d, hh[ca]? = some d ∧
      update_train_dict pn ns (h.getD ta []) (h.getD sa []) = Except.ok d := by
  have hca0 : (h ++ [[]] : List PyDict)[h.length]? = some [] := by
    rw [List.getElem?_append_right (le_refl _)]
    simp
  rw [show fuseInPlace pn ns h ta sa =
      (List.foldlM (fipBody pn ns (h.getD sa []) h.length) (h ++ [[]])
        (h.getD ta [])).map (fun hh => (hh, h.length)) from rfl] at hok
  rw [fip_go pn ns (h.getD sa []) h.length (h.getD ta []) (h ++ [[]]) [] hca0]
    at hok
  cases hfold : List.foldl (fuseStep pn ns (h.getD sa [])) (Except.ok [])
      (h.getD ta []) with
  | error e =>
    rw [hfold] at hok
    exact Except.noConfusion hok
  | ok d =>
    rw [hfold] at hok
    have hred : Except.map (fun hh : List PyDict => (hh, h.length))
        (Except.map (fun d => (h ++ [[]]).set h.length d)
          (Except.ok d : Except PyErr PyDict)) =
        Except.ok ((h ++ [[]]).set h.length d, h.length) := rfl
    rw [hred, Except.ok.injEq, Prod.mk.injEq] at hok
    obtain ⟨hhh, hca⟩ := hok
    subst hhh
    subst hca
    refine ⟨rfl, by omega, by omega, ?_, d, ?_, hfold⟩
    · intro a ha
      rw [List.getElem?_set_ne (by omega), List.getElem?_append, if_pos ha]
    · rw [List.getElem?_set_eq_of_lt _ (by simp)]

/-- Claim C10, witness: a concrete two-object heap; fusing leaves both input
dictionaries untouched and the fused corpus appears at the fresh address. -/
theorem fuseInPlace_frame_witness :
    (2 : Nat) = ([[("average_stress", PyVal.list [PyVal.num 1])],
        [("average_stress", PyVal.list [PyVal.num 2])]] : List PyDict).length ∧
    (2 : Nat) ≠ 0 ∧ (2 : Nat) ≠ 1 ∧
    (∀ a, a < ([[("average_stress", PyVal.list [PyVal.num 1])],
        [("average_stress", PyVal.list [PyVal.num 2])]] : List PyDict).length →
      ([[("average_stress", PyVal.list [PyVal.num 1])],
        [("average_stress", PyVal.list [PyVal.num 2])],
        [("average_stress", PyVal.list [PyVal.num 1, PyVal.num 2])]] :
          List PyDict)[a]? =
      ([[("average_stress", PyVal.list [PyVal.num 1])],
        [("average_stress", PyVal.list [PyVal.num 2])]] : List PyDict)[a]?) ∧
    ∃ d, ([[("average_stress", PyVal.list [PyVal.num 1])],
        [("average_stress", PyVal.list [PyVal.num 2])],
        [("average_stress", PyVal.list [PyVal.num 1, PyVal.num 2])]] :
          List PyDict)[(2 : Nat)]? = some d ∧
      update_train_dict PARAM_NAMES NUM_STRAINS
        (([[("average_stress", PyVal.list [PyVal.num 1])],
          [("average_stress", PyVal.list [PyVal.num 2])]] : List PyDict).getD 0 [])
        (([[("average_stress", PyVal.list [PyVal.num 1])],
          [("average_stress", PyVal.list [PyVal.num 2])]] : List PyDict).getD 1 []) =
        Except.ok d :=
  fuseInPlace_frame PARAM_NAMES NUM_STRAINS
    [[("average_stress", PyVal.list [PyVal.num 1])],
     [("average_stress", PyVal.list [PyVal.num 2])]] 0 1
    (by decide) (by decide)
    [[("average_stress", PyVal.list [PyVal.num 1])],
     [("average_stress", PyVal.list [PyVal.num 2])],
     [("average_stress", PyVal.list [PyVal.num 1, PyVal.num 2])]] 2 (by rfl)

/-! ## Claim C4: warm start comes only from the history -/

theorem argMinBy_mem {α : Type} (f : α → ℚ) (x : α) (xs : List α) :
    argMinBy f x xs ∈ x :: xs := by
  induction xs generalizing x with
  | nil => simp [argMinBy]
  | cons y ys ih =>
    rw [argMinBy, List.foldl_cons]
    have h := ih (if f y < f x then y else x)
    rcases List.mem_cons.mp h with h1 | h1
    · rw [argMinBy] at h1
      rw [h1]
      by_cases hc : f y < f x
      · rw [if_pos hc]
        exact List.mem_cons_of_mem _ (List.mem_cons_self _ _)
      · rw [if_neg hc]
        exact List.mem_cons_self _ _
    · exact List.mem_cons_of_mem _ (List.mem_cons_of_mem _ h1)

/-- Claim C4 (confirmed): the controller's assessment step returns `None` on
an empty history (cold start), and on a non-empty history it returns exactly
one element of the history — a historical best parameter vector, never a
blended or invented one. -/
theorem assessStep_warm_start (err : ParamVec → ℚ) (history : List ParamVec)
    (hne : history ≠ []) :
    assessStep err ([] : List ParamVec) = none ∧
    ∃ p ∈ history, assessStep err history = some p := by
  refine ⟨rfl, ?_⟩
  cases history with
  | nil => exact absurd rfl hne
  | cons p ps =>
    refine ⟨argMinBy err p ps, argMinBy_mem err p ps, ?_⟩
    rw [assessStep, if_neg (by simp)]
    rfl

/-- Claim C4, witness: on a concrete two-element history the assessment step
returns one of the two historical vectors, and `None` on the empty
history. -/
theorem assessStep_warm_start_witness :
    assessStep (fun _ => (0 : ℚ)) ([] : List ParamVec) = none ∧
    ∃ p ∈ [[("cp_n", (1 : ℚ))], [("cp_n", (2 : ℚ))]],
      assessStep (fun _ => (0 : ℚ)) [[("cp_n", (1 : ℚ))], [("cp_n", (2 : ℚ))]] =
        some p :=
  assessStep_warm_start (fun _ => (0 : ℚ))
    [[("cp_n", (1 : ℚ))], [("cp_n", (2 : ℚ))]] (by simp)

/-! ## Claim C8: count-based campaign termination -/

/-- Claim C8 (confirmed): the campaign loop executes exactly
`NUM_ITERATIONS` rounds, in order, regardless of the round body and of the
carried state — there is no measured convergence criterion and no early
exit. -/
theorem runCampaign_round_budget {σ : Type} (round : Nat → σ → σ) (s : σ) :
    (runCampaign round s).2 = List.range NUM_ITERATIONS ∧
    (runCampaign round s).2.length = NUM_ITERATIONS := by
  have key : ∀ (l : List Nat) (st : σ × List Nat),
      (l.foldl (fun st i => (round i st.1, st.2 ++ [i])) st).2 = st.2 ++ l := by
    intro l
    induction l with
    | nil => intro st; simp
    | cons a t ih =>
      intro st
      rw [List.foldl_cons, ih]
      simp
  constructor
  · rw [runCampaign, key]
    simp
  · rw [runCampaign, key]
    simp

/-! ## Claim C5: the optimiser's bounds guarantee -/

theorem bind_params_le : ∀ b ∈ bind_params, b.lower ≤ b.upper := by
  intro b hb
  fin_cases hb <;> norm_num

theorem scaleParam_mem (b : ParamBound) (u : ℚ) (h : b.lower ≤ b.upper) :
    b.lower ≤ scaleParam b u ∧ scaleParam b u ≤ b.upper := by
  have h0 : 0 ≤ clamp01 u := le_max_left 0 _
  have h1 : clamp01 u ≤ 1 := max_le (by norm_num) (min_le_left _ _)
  constructor
  · have hm : 0 ≤ clamp01 u * (b.upper - b.lower) :=
      mul_nonneg h0 (by linarith)
    rw [scaleParam]
    linarith
  · have hm : clamp01 u * (b.upper - b.lower) ≤ b.upper - b.lower := by
      nlinarith
    rw [scaleParam]
    linarith

theorem moga_length (fitness : List ℚ → ℚ) (schema : List ParamBound)
    (numGens popN offN : Nat) (crossRate mutRate : ℚ) (stream : Nat → ℚ) :
    (moga fitness schema numGens popN offN crossRate mutRate stream).length =
      popN := by
  rw [moga]
  have key : ∀ (l : List Nat) (pop : List (List ℚ)), pop.length = popN →
      (l.foldl (fun pop gen =>
        nextGen fitness schema schema.length popN stream gen pop) pop).length =
        popN := by
    intro l
    induction l with
    | nil => intro pop h; simpa
    | cons a t ih =>
      intro pop h
      rw [List.foldl_cons]
      exact ih _ (by simp [nextGen, List.length_zipWith, h])
  exact key _ _ (by simp [initPop])

/-- Claim C5 (confirmed, spec-modelled search engine): for every optimisation
run that returns a best candidate, every component of that candidate's
parameter vector lies within the `[lower, upper]` range declared by
`bind_param` for the parameter at the same position of the schema. -/
theorem optimise_within_bounds (fitness : List ℚ → ℚ) (stream : Nat → ℚ)
    (best : List ℚ) (hok : optimise fitness stream = some best) :
    ∀ i, i < best.length → i < bind_params.length ∧
      (bind_params.getD i ⟨"", 0, 0⟩).lower ≤ best.getD i 0 ∧
      best.getD i 0 ≤ (bind_params.getD i ⟨"", 0, 0⟩).upper := by
  have hmem : ∃ g, best = decode bind_params g := by
    rw [optimise] at hok
    cases hl : (moga fitness bind_params 2 100 100 (8 / 10) (1 / 100)
        stream).map (decode bind_params) with
    | nil =>
      rw [hl] at hok
      exact Option.noConfusion hok
    | cons c cs =>
      rw [hl, Option.some_inj] at hok
      have hm := argMinBy_mem fitness c cs
      rw [← hl] at hm
      obtain ⟨g, _, hdec⟩ := List.mem_map.mp hm
      exact ⟨g, by rw [← hok, ← hdec]⟩
  obtain ⟨g, rfl⟩ := hmem
  intro i hi
  rw [decode, List.length_zipWith, lt_min_iff] at hi
  obtain ⟨hi1, hi2⟩ := hi
  have hval : (decode bind_params g).getD i 0 =
      scaleParam bind_params[i] g[i] := by
    rw [List.getD_eq_getElem _ _ (by rw [decode, List.length_zipWith]; omega)]
    simp [decode, List.getElem_zipWith]
  have hb : bind_params.getD i ⟨"", 0, 0⟩ = bind_params[i] :=
    List.getD_eq_getElem _ _ hi1
  have hlu := scaleParam_mem bind_params[i] g[i]
    (bind_params_le _ (List.getElem_mem hi1))
  rw [hval, hb]
  exact ⟨hi1, hlu.1, hlu.2⟩

/-- Claim C5, witness: a concrete run with the constant-zero error metric
and the constant-zero random stream returns a best candidate, and the bounds
guarantee holds for it. -/
theorem optimise_within_bounds_witness :
    ∃ best, optimise (fun _ => (0 : ℚ)) (fun _ => (0 : ℚ)) = some best ∧
      ∀ i, i < best.length → i < bind_params.length ∧
        (bind_params.getD i ⟨"", 0, 0⟩).lower ≤ best.getD i 0 ∧
        best.getD i 0 ≤ (bind_params.getD i ⟨"", 0, 0⟩).upper := by
  cases hok : optimise (fun _ => (0 : ℚ)) (fun _ => (0 : ℚ)) with
  | none =>
    exfalso
    cases hl : (moga (fun _ => (0 : ℚ)) bind_params 2 100 100 (8 / 10) (1 / 100)
        (fun _ => (0 : ℚ))).map (decode bind_params) with
    | nil =>
      have hlen : ((moga (fun _ => (0 : ℚ)) bind_params 2 100 100 (8 / 10)
          (1 / 100) (fun _ => (0 : ℚ))).map (decode bind_params)).length = 100 := by
        rw [List.length_map]
        exact moga_length _ _ _ _ _ _ _ _
      rw [hl] at hlen
      simp at hlen
    | cons c cs =>
      have hsome : optimise (fun _ => (0 : ℚ)) (fun _ => (0 : ℚ)) =
          some (argMinBy (fun _ => (0 : ℚ)) c cs) := by
        rw [optimise, hl]
      rw [hok] at hsome
      exact Option.noConfusion hsome
  | some best => exact ⟨best, rfl, optimise_within_bounds _ _ best hok⟩

/-! ## Claim C6: per-round storage paths -/

theorem digitChar_inj : ∀ a < 10, ∀ b < 10, digitChar a = digitChar b → a = b := by
  decide

theorem digitChar_isDig : ∀ d < 10, isDig (digitChar d) = true := by
  decide

theorem toDigitsRev_lt : ∀ fuel n d, d ∈ toDigitsRev fuel n → d < 10 := by
  intro fuel
  induction fuel with
  | zero => intro n d h; simp [toDigitsRev] at h
  | succ fuel ih =>
    intro n d h
    rw [toDigitsRev] at h
    by_cases hn : n < 10
    · rw [if_pos hn] at h
      simp at h
      omega
    · rw [if_neg hn] at h
      rcases List.mem_cons.mp h with h1 | h1
      · subst h1
        exact Nat.mod_lt _ (by omega)
      · exact ih _ _ h1

theorem valRev_cons (d : Nat) (l : List Nat) :
    valRev (d :: l) = valRev l * 10 + d := rfl

theorem valRev_toDigitsRev : ∀ fuel n, n < fuel →
    valRev (toDigitsRev fuel n) = n := by
  intro fuel
  induction fuel with
  | zero => intro n h; omega
  | succ fuel ih =>
    intro n h
    rw [toDigitsRev]
    by_cases hn : n < 10
    · rw [if_pos hn]
      simp [valRev]
    · rw [if_neg hn]
      rw [valRev_cons]
      have hdiv : n / 10 < n := Nat.div_lt_self (by omega) (by omega)
      rw [ih (n / 10) (by omega)]
      omega

theorem map_digitChar_inj : ∀ l1 l2 : List Nat, (∀ d ∈ l1, d < 10) →
    (∀ d ∈ l2, d < 10) → l1.map digitChar = l2.map digitChar → l1 = l2 := by
  intro l1
  induction l1 with
  | nil =>
    intro l2 _ _ h
    cases l2 with
    | nil => rfl
    | cons b bs => simp at h
  | cons a as ih =>
    intro l2 h1 h2 h
    cases l2 with
    | nil => simp at h
    | cons b bs =>
      simp only [List.map_cons, List.cons.injEq] at h
      have ha : a = b :=
        digitChar_inj a (h1 a (List.mem_cons_self _ _))
          b (h2 b (List.mem_cons_self _ _)) h.1
      rw [ha, ih bs (fun d hd => h1 d (List.mem_cons_of_mem _ hd))
        (fun d hd => h2 d (List.mem_cons_of_mem _ hd)) h.2]

theorem decRepr_digits (n : Nat) : ∀ c ∈ decRepr n, isDig c = true := by
  intro c hc
  rw [decRepr, List.mem_reverse] at hc
  obtain ⟨d, hd, rfl⟩ := List.mem_map.mp hc
  exact digitChar_isDig d (toDigitsRev_lt _ _ _ hd)

theorem decRepr_inj {m n : Nat} (h : decRepr m = decRepr n) : m = n := by
  rw [decRepr, decRepr] at h
  have h1 := List.reverse_inj.mp h
  have h2 := map_digitChar_inj _ _ (fun d hd => toDigitsRev_lt _ _ _ hd)
    (fun d hd => toDigitsRev_lt _ _ _ hd) h1
  have hm := valRev_toDigitsRev (m + 1) m (by omega)
  have hn := valRev_toDigitsRev (n + 1) n (by omega)
  rw [h2] at hm
  omega

theorem takeWhile_digits_append :
    ∀ (l : List Char) (c : Char) (rest : List Char),
    (∀ x ∈ l, isDig x = true) → isDig c = false →
    (l ++ c :: rest).takeWhile isDig = l := by
  intro l
  induction l with
  | nil =>
    intro c rest _ hc
    simp [List.takeWhile_cons, hc]
  | cons a as ih =>
    intro c rest hall hc
    rw [List.cons_append, List.takeWhile_cons,
      if_pos (hall a (List.mem_cons_self _ _)),
      ih c rest (fun x hx => hall x (List.mem_cons_of_mem _ hx)) hc]

theorem stagePath_reverse (ts : List Char) (r : Nat) (tag : List Char) :
    (stagePath ts r tag).reverse =
      tag.reverse ++ '_' ::
        ((decRepr (r + 1)).reverse ++ 'i' :: '_' :: ts.reverse) := by
  simp [stagePath, List.reverse_append, List.reverse_cons, List.append_assoc]

theorem stagePath_ne_of_tag (ts1 ts2 : List Char) (r1 r2 : Nat)
    (t1 t2 : List Char) (k : Nat) (hk1 : k < t1.length) (hk2 : k < t2.length)
    (hne : t1.reverse.getD k ' ' ≠ t2.reverse.getD k ' ') :
    stagePath ts1 r1 t1 ≠ stagePath ts2 r2 t2 := by
  intro heq
  have hrev := congrArg List.reverse heq
  rw [stagePath_reverse, stagePath_reverse] at hrev
  apply hne
  have e1 : (t1.reverse ++
      ('_' :: ((decRepr (r1 + 1)).reverse ++ 'i' :: '_' :: ts1.reverse))).getD
        k ' ' = t1.reverse.getD k ' ' :=
    List.getD_append _ _ _ _ (by simpa using hk1)
  have e2 : (t2.reverse ++
      ('_' :: ((decRepr (r2 + 1)).reverse ++ 'i' :: '_' :: ts2.reverse))).getD
        k ' ' = t2.reverse.getD k ' ' :=
    List.getD_append _ _ _ _ (by simpa using hk2)
  rw [← e1, ← e2, hrev]

theorem stagePath_ne_of_round (ts1 ts2 : List Char) (r1 r2 : Nat)
    (t : List Char) (hr : r1 ≠ r2) :
    stagePath ts1 r1 t ≠ stagePath ts2 r2 t := by
  intro heq
  have hrev := congrArg List.reverse heq
  rw [stagePath_reverse, stagePath_reverse] at hrev
  have hrev' : (t.reverse ++ ['_']) ++
      ((decRepr (r1 + 1)).reverse ++ 'i' :: '_' :: ts1.reverse) =
      (t.reverse ++ ['_']) ++
      ((decRepr (r2 + 1)).reverse ++ 'i' :: '_' :: ts2.reverse) := by
    simpa [List.append_assoc] using hrev
  have hx := List.append_cancel_left hrev'
  have htw := congrArg (List.takeWhile isDig) hx
  rw [takeWhile_digits_append _ _ _
      (fun x hx => decRepr_digits _ _ (List.mem_reverse.mp hx)) (by decide),
    takeWhile_digits_append _ _ _
      (fun x hx => decRepr_digits _ _ (List.mem_reverse.mp hx)) (by decide)]
    at htw
  exact hr (by
    have := decRepr_inj (List.reverse_inj.mp htw)
    omega)

/-- Claim C6, counterexample: stage paths are not named deterministically by
round index and stage tag alone.  The training path of round 1 built at two
different clock readings (timestamp prefixes `A` and `B`) yields two
different strings, so no function of round index and stage tag alone can
name the allocated paths. -/
theorem stagePath_timestamp_cex :
    stagePath "A".data 0 "surrogate".data ≠
      stagePath "B".data 0 "surrogate".data := by
  decide

/-- Claim C6, amended: the stage paths of the round loop are pairwise
distinct whenever the round indices differ or the stage tags differ,
whatever timestamp prefixes the clock produced; but each path consists of a
wall-clock timestamp prefix followed by the round index and stage tag, so it
is determined by round index and stage tag only up to that prefix. -/
theorem stagePath_round_isolation (ts1 ts2 : List Char) (r1 r2 : Nat)
    (t1 t2 : List Char) (h1 : t1 ∈ STAGE_TAGS) (h2 : t2 ∈ STAGE_TAGS)
    (hd : r1 ≠ r2 ∨ t1 ≠ t2) :
    stagePath ts1 r1 t1 ≠ stagePath ts2 r2 t2 := by
  simp only [STAGE_TAGS, List.mem_cons, List.not_mem_nil, or_false] at h1 h2
  rcases h1 with rfl | rfl | rfl <;> rcases h2 with rfl | rfl | rfl
  · rcases hd with hr | ht
    · exact stagePath_ne_of_round _ _ _ _ _ hr
    · exact absurd rfl ht
  · exact stagePath_ne_of_tag _ _ _ _ _ _ 1 (by decide) (by decide) (by decide)
  · exact stagePath_ne_of_tag _ _ _ _ _ _ 3 (by decide) (by decide) (by decide)
  · exact stagePath_ne_of_tag _ _ _ _ _ _ 1 (by decide) (by decide) (by decide)
  · rcases hd with hr | ht
    · exact stagePath_ne_of_round _ _ _ _ _ hr
    · exact absurd rfl ht
  · exact stagePath_ne_of_tag _ _ _ _ _ _ 1 (by decide) (by decide) (by decide)
  · exact stagePath_ne_of_tag _ _ _ _ _ _ 3 (by decide) (by decide) (by decide)
  · exact stagePath_ne_of_tag _ _ _ _ _ _ 1 (by decide) (by decide) (by decide)
  · rcases hd with hr | ht
    · exact stagePath_ne_of_round _ _ _ _ _ hr
    · exact absurd rfl ht

/-- Claim C6, witness: the round-1 training path and the round-2 simulation
path are distinct for concrete (distinct) timestamp prefixes. -/
theorem stagePath_round_isolation_witness :
    stagePath "A".data 0 "surrogate".data ≠
      stagePath "B".data 1 "simulate".data :=
  stagePath_round_isolation "A".data "B".data 0 1
    "surrogate".data "simulate".data (by decide) (by decide)
    (Or.inl (by decide))

end Asmbo
